import Mathlib

/-! # osquery, darwin `processes` table

A shallow embedding of `osquery/tables/system/darwin/processes.cpp`:
the process enumerator (`getProcList`), the lineage resolver (`getParentMap`),
the credential reader (`getProcCred`), the decoder of the `KERN_PROCARGS2`
buffer (`getProcRawArgs`), the argument / environment partitioners
(`getProcArgs`, `getProcEnv`) and the row emitters (`genProcesses`,
`genProcessEnvs`).

Every system call is an explicit input holding the outcome the kernel gave.
`std::string` is a list of characters, `std::set<int>` a strictly ascending
list, `std::map` a list of pairs kept ascending by key.  Undefined behaviour
of the C++ code (calling `back()` on an empty vector, reading a C string that
is not terminated inside mapped memory) is an explicit `Fault`.
-/

namespace osquery
namespace tables

/-! ## Strings -/

/-- A `std::string` (or a C string without its terminator): its characters in order. -/
abbrev CString := List Char

/-- The C string terminator, byte zero. -/
def NUL : Char := Char.ofNat 0

/-- Ordering of `std::string` keys (`std::less<std::string>`): lexicographic on the
character codes, a proper prefix being smaller. -/
def strLt : CString → CString → Bool
  | [], [] => false
  | [], _ :: _ => true
  | _ :: _, [] => false
  | a :: as, b :: bs =>
    if a.toNat < b.toNat then true
    else if b.toNat < a.toNat then false
    else strLt as bs

/-- Ordering of `int` keys (`std::less<int>`). -/
def intLt (a b : Int) : Bool := decide (a < b)

/-- The `std::string::find_first_of` call with a one-character pattern: the index of
the first occurrence of `c`, or `none` for `std::string::npos`. -/
def find_first_of (c : Char) : CString → Option Nat
  | [] => none
  | x :: xs => if x = c then some 0 else (find_first_of c xs).map (· + 1)

/-- The classification `std::isspace` in the classic locale, which
`boost::algorithm::trim` uses: space, `\t`, `\n`, `\v`, `\f`, `\r`. -/
def isSpace (c : Char) : Bool := c.toNat = 32 || (9 ≤ c.toNat && c.toNat ≤ 13)

/-- The call `boost::algorithm::trim`: `trim_right` followed by `trim_left`. -/
def trim (s : CString) : CString :=
  ((s.reverse.dropWhile isSpace).reverse).dropWhile isSpace

/-- The call `boost::algorithm::join(parts, sep)`. -/
def join (sep : CString) : List CString → CString
  | [] => []
  | [s] => s
  | s :: t :: rest => s ++ sep ++ join sep (t :: rest)

/-- Modelled from the spec: the macros `INTEGER`, `BIGINT` and `TEXT` of
`osquery/tables.h` (not among the sources) turn a number into the string holding
its decimal digits, "integer-as-string" in the column contracts. -/
def lexical_cast (n : Int) : CString :=
  if n < 0 then '-' :: Nat.toDigits 10 n.natAbs else Nat.toDigits 10 n.toNat

/-! ## Containers -/

/-- The call `std::set<int>::insert`: the set is a strictly ascending list. -/
def setInsert (x : Int) : List Int → List Int
  | [] => [x]
  | y :: s =>
    if x < y then x :: y :: s
    else if x = y then y :: s
    else y :: setInsert x s

/-- The assignment `m[k] = v` on a `std::map` whose keys are ordered by `lt`: the
value of an existing key is overwritten, a new key goes to its sorted place. -/
def mapSet {K V : Type} [DecidableEq K] (lt : K → K → Bool) (k : K) (v : V) :
    List (K × V) → List (K × V)
  | [] => [(k, v)]
  | (k', v') :: m =>
    if lt k k' then (k, v) :: (k', v') :: m
    else if k = k' then (k', v) :: m
    else (k', v') :: mapSet lt k v m

/-- The call `std::map::find`: the value stored under `k`, `none` for `end()`. -/
def mapFind {K V : Type} [DecidableEq K] (k : K) : List (K × V) → Option V
  | [] => none
  | (k', v) :: m => if k = k' then some v else mapFind k m

/-- A `std::map<std::string, std::string>`: the environment map, and a `Row`. -/
abbrev StrMap := List (CString × CString)

/-- The type `Row` of `osquery/tables.h`: column name to string value. -/
abbrev Row := StrMap

/-- The type `QueryData`: the rows in emission order. -/
abbrev QueryData := List Row

/-- The assignment `r[col] = value` on a row or an environment map. -/
def StrMap.set (m : StrMap) (k : String) (v : CString) : StrMap :=
  mapSet strLt k.toList v m

/-- The value of column `col` of a row. -/
def StrMap.get (m : StrMap) (k : String) : Option CString :=
  mapFind k.toList m

/-! ## Process enumerator -/

/-- Modelled from the spec: the `QueryContext` of the query layer (declared in
`osquery/tables.h`, not among the sources), reduced to what this file asks of it. -/
structure QueryContext where
  /-- Condition `constraints.count("pid") > 0 && constraints.at("pid").exists()`. -/
  hasPidConstraint : Bool
  /-- Value of `constraints.at("pid").getAll<int>(EQUALS)`, a `std::set<int>`. -/
  pidEquals : List Int
  /-- Value of `constraints["pid"].matches<int>(pid)`. -/
  pidMatches : Int → Bool

/-- The outcome of the two `proc_listpids(PROC_ALL_PIDS, ...)` calls of one pass. -/
structure ProcListPids where
  /-- Return value of `proc_listpids(PROC_ALL_PIDS, 0, NULL, 0)`. -/
  sizeQuery : Int
  /-- Return value of `proc_listpids(PROC_ALL_PIDS, 0, pids, sizeof(pids))`. -/
  fillQuery : Int
  /-- Contents of the array `pids` after the second call, by index. -/
  pids : Nat → Int

/-- The loop of lines 59-67 over the indices still to visit. -/
def getProcList.collect (pids : Nat → Int) : List Nat → List Int → List Int
  | [], pidlist => pidlist
  | i :: rest, pidlist =>
    if pids i ≤ 0 then getProcList.collect pids rest pidlist
    else getProcList.collect pids rest (setInsert (pids i) pidlist)

/-- The function `getProcList` (lines 28-70); `sizeof(pid_t)` is 4. -/
def getProcList (context : QueryContext) (os : ProcListPids) : List Int :=
  let pidlist : List Int := if context.hasPidConstraint then context.pidEquals else []
  if !pidlist.isEmpty then pidlist
  else
    let bufsize := os.sizeQuery
    if bufsize ≤ 0 then pidlist
    else
      let bufsize := os.fillQuery
      if bufsize ≤ 0 then pidlist
      else
        let num_pids := bufsize.toNat / 4
        getProcList.collect os.pids (List.range num_pids) pidlist

/-! ## Lineage resolver -/

/-- The outcome of `sysctl({CTL_KERN, KERN_PROC, KERN_PROC_PID, pid}, ...)` for each
pid: `none` when it returns -1, else the value left in `size` and the field
`proc.kp_eproc.e_ppid` after the call. -/
abbrev KernProc := Int → Option (Nat × Int)

/-- The loop of lines 78-87 over the pids still to visit, in set order. -/
def getParentMap.loop (sysctl : KernProc) : List Int → List (Int × Int) → List (Int × Int)
  | [], pidmap => pidmap
  | pid :: rest, pidmap =>
    match sysctl pid with
    | none => pidmap
    | some (size, e_ppid) =>
      if size > 0 then getParentMap.loop sysctl rest (mapSet intLt pid e_ppid pidmap)
      else getParentMap.loop sysctl rest pidmap

/-- The function `getParentMap` (lines 72-90). -/
def getParentMap (sysctl : KernProc) (pidlist : List Int) : List (Int × Int) :=
  getParentMap.loop sysctl pidlist []

/-! ## Credentials -/

/-- The fields of the libproc `struct proc_bsdshortinfo` that are read. -/
structure proc_bsdshortinfo where
  /-- Effective user id. -/
  pbsi_uid : Nat
  /-- Effective group id. -/
  pbsi_gid : Nat
  /-- Real user id. -/
  pbsi_ruid : Nat
  /-- Real group id. -/
  pbsi_rgid : Nat

/-- The `struct proc_cred` of lines 102-107. -/
structure proc_cred where
  real_uid : Nat
  real_gid : Nat
  effective_uid : Nat
  effective_gid : Nat
deriving DecidableEq

/-- The function `getProcCred` (lines 109-121): `bsdinfo` is `some` when
`proc_pidinfo(pid, PROC_PIDT_SHORTBSDINFO, ...)` returned `sizeof(bsdinfo)`;
the result is `some cred` for `true`, `none` for `false`. -/
def getProcCred (bsdinfo : Option proc_bsdshortinfo) : Option proc_cred :=
  match bsdinfo with
  | some bsdinfo =>
    some { real_uid := bsdinfo.pbsi_ruid
           real_gid := bsdinfo.pbsi_ruid
           effective_uid := bsdinfo.pbsi_uid
           effective_gid := bsdinfo.pbsi_gid }
  | none => none

/-! ## Raw argument / environment fetcher -/

/-- What the C++ code leaves undefined, or a model running out of steps. -/
inductive Fault where
  /-- The call `args.back()` on an empty vector (line 178). -/
  | backOfEmptyVector
  /-- The constructor `std::string(cp)` met no terminator inside mapped memory. -/
  | unterminatedString
  /-- The step budget of the model ran out (shown below never to happen). -/
  | outOfFuel
deriving DecidableEq, Repr

/-- The constructor `std::string(cp)` on the memory that starts at `procargs`:
the characters from offset `cp` up to the first terminator, `none` when the
memory ends before a terminator is met. -/
def c_str (mem : List Char) (cp : Nat) : Option CString :=
  if NUL ∈ mem.drop cp then some ((mem.drop cp).takeWhile (fun c => c != NUL)) else none

/-- The vector `args` of `getProcRawArgs`, together with every offset from `procargs`
that the walk has dereferenced. -/
structure RawArgs where
  args : List CString
  reads : List Nat
deriving DecidableEq

/-- The `do ... while` loop of lines 173-179. `mem` is the memory from `procargs`
on, `argmax` the size the kernel reported, `cp` the cursor as an offset from
`procargs`. Reading the string at `cp` dereferences its characters and its
terminator. -/
def getProcRawArgs.walk (mem : List Char) (argmax : Nat) :
    Nat → Nat → RawArgs → Except Fault RawArgs
  | 0, _, _ => .error .outOfFuel
  | fuel + 1, cp, st =>
    match c_str mem cp with
    | none => .error .unterminatedString
    | some s =>
      let args := if s.length > 0 then st.args ++ [s] else st.args
      let reads := st.reads ++ List.range' cp (s.length + 1)
      match args.getLast? with
      | none => .error .backOfEmptyVector
      | some back =>
        let cp := cp + (back.length + 1)
        if cp < argmax then getProcRawArgs.walk mem argmax fuel cp ⟨args, reads⟩
        else .ok ⟨args, reads⟩

/-- The outcome of `sysctl({CTL_KERN, KERN_PROCARGS2, pid}, 3, &procargs, &argmax, NULL, 0)`
given the capacity passed in: `none` when it returns -1, else the memory from
`procargs` on (the buffer first, then whatever follows it) and the size stored
back into `argmax`. -/
abbrev ProcArgs2 := Nat → Option (List Char × Nat)

/-- The function `getProcRawArgs` (lines 155-181), with the trace of its reads. The
cursor grows by at least one per iteration, so `argmax + 1` steps are enough. -/
def getProcRawArgs.traced (sysctl : ProcArgs2) (argmax : Nat) : Except Fault RawArgs :=
  match sysctl argmax with
  | none => .ok ⟨[], []⟩
  | some (mem, argmax) => getProcRawArgs.walk mem argmax (argmax + 1) 0 ⟨[], []⟩

/-- The function `getProcRawArgs` (lines 155-181): the vector it returns. -/
def getProcRawArgs (sysctl : ProcArgs2) (argmax : Nat) : Except Fault (List CString) :=
  (getProcRawArgs.traced sysctl argmax).map RawArgs.args

/-! ## Argument / environment partitioner -/

/-- The loop of lines 192-200 over the strings still to visit, last string first. -/
def getProcEnv.scan : List CString → StrMap → StrMap
  | [], env => env
  | s :: rest, env =>
    match find_first_of '=' s with
    | none => env
    | some idx => getProcEnv.scan rest (mapSet strLt (s.take idx) (s.drop (idx + 1)) env)

/-- Lines 184 and 187-202 of `getProcEnv`, `args` being what line 185 got from
`getProcRawArgs`. -/
def getProcEnv.ofArgs (args : List CString) : StrMap :=
  getProcEnv.scan args.reverse []

/-- The function `getProcEnv` (lines 183-203). -/
def getProcEnv (sysctl : ProcArgs2) (argmax : Nat) : Except Fault StrMap :=
  (getProcRawArgs sysctl argmax).map getProcEnv.ofArgs

/-- The loop of lines 214-225 over the strings still to visit, last string first. -/
def getProcArgs.scan : List CString → Bool → List CString → List CString
  | [], _, args => args
  | s :: rest, collect, args =>
    if collect then getProcArgs.scan rest collect (args ++ [trim s])
    else
      match find_first_of '=' s with
      | none => getProcArgs.scan rest true args
      | some _ => getProcArgs.scan rest collect args

/-- Lines 207-230 of `getProcArgs`, `raw_args` being what line 206 got from
`getProcRawArgs`. -/
def getProcArgs.ofRawArgs (raw_args : List CString) : List CString :=
  (getProcArgs.scan raw_args.reverse false []).reverse

/-- The function `getProcArgs` (lines 205-231). -/
def getProcArgs (sysctl : ProcArgs2) (argmax : Nat) : Except Fault (List CString) :=
  (getProcRawArgs sysctl argmax).map getProcArgs.ofRawArgs

/-! ## Process attribute collector and row emitters -/

/-- The function `genMaxArgs` (lines 124-135): `sysctl` is `none` when the
`KERN_ARGMAX` query returns -1, else the value it stored. -/
def genMaxArgs (sysctl : Option Nat) : Nat :=
  match sysctl with
  | none => 0
  | some argmax => argmax

/-- The function `getProcPath` (lines 92-100): what `proc_pidpath` returned and the
C string it left in `path`. -/
def getProcPath (proc_pidpath : Int × CString) : CString :=
  if proc_pidpath.1 ≤ 0 then [] else proc_pidpath.2

/-- The fields of the libproc `struct proc_vnodepathinfo` that are read. -/
structure proc_vnodepathinfo where
  /-- Field `pvi_cdir.vip_vi.vi_stat.vst_dev`. -/
  cdir_dev : Nat
  /-- Field `pvi_cdir.vip_path`. -/
  cdir_path : CString
  /-- Field `pvi_rdir.vip_vi.vi_stat.vst_dev`. -/
  rdir_dev : Nat
  /-- Field `pvi_rdir.vip_path`. -/
  rdir_path : CString

/-- The function `genProcRootAndCWD` (lines 137-153): `pathinfo` is `some` when
`proc_pidinfo(pid, PROC_PIDVNODEPATHINFO, ...)` returned `sizeof(pathinfo)`. -/
def genProcRootAndCWD (pathinfo : Option proc_vnodepathinfo) (r : Row) : Row :=
  let r := r.set "cwd" []
  let r := r.set "root" []
  match pathinfo with
  | some pathinfo =>
    let r := if pathinfo.cdir_dev ≠ 0 then r.set "cwd" pathinfo.cdir_path else r
    if pathinfo.rdir_dev ≠ 0 then r.set "root" pathinfo.rdir_path else r
  | none => r

/-- The fields of `struct rusage_info_v2` that are read, each a `uint64_t`. -/
structure rusage_info_v2 where
  ri_wired_size : Nat
  ri_resident_size : Nat
  ri_phys_footprint : Nat
  ri_user_time : Nat
  ri_system_time : Nat
  ri_proc_start_abstime : Nat

/-- The outcomes of the system calls of one pass. -/
structure Kernel where
  /-- The two `proc_listpids` calls. -/
  listpids : ProcListPids
  /-- The `KERN_PROC_PID` query of each pid. -/
  kern_proc : KernProc
  /-- The `KERN_ARGMAX` query. -/
  kern_argmax : Option Nat
  /-- The `KERN_PROCARGS2` query of each pid. -/
  procargs2 : Int → ProcArgs2
  /-- The call `proc_pidpath` of each pid. -/
  pidpath : Int → Int × CString
  /-- The `PROC_PIDVNODEPATHINFO` query of each pid. -/
  vnodepathinfo : Int → Option proc_vnodepathinfo
  /-- The `PROC_PIDT_SHORTBSDINFO` query of each pid. -/
  shortbsdinfo : Int → Option proc_bsdshortinfo
  /-- The call `proc_pid_rusage` of each pid, `some` when it returned 0. -/
  rusage : Int → Option rusage_info_v2

/-- Modelled from the spec: the two helpers outside this file, the final path
segment (`boost::filesystem::path::filename`) and the on-disk existence check
(`osquery::pathExists(..).toString()`, not among the sources). -/
structure Helpers where
  filename : CString → CString
  pathExists : CString → CString

/-- Lines 258-269 of `genProcesses`: the credential columns. -/
def genProcesses.cred (bsdinfo : Option proc_bsdshortinfo) (r : Row) : Row :=
  match getProcCred bsdinfo with
  | some cred =>
    let r := r.set "uid" (lexical_cast cred.real_uid)
    let r := r.set "gid" (lexical_cast cred.real_gid)
    let r := r.set "euid" (lexical_cast cred.effective_uid)
    r.set "egid" (lexical_cast cred.effective_gid)
  | none =>
    let r := r.set "uid" "-1".toList
    let r := r.set "gid" "-1".toList
    let r := r.set "euid" "-1".toList
    r.set "egid" "-1".toList

/-- Lines 271-277 of `genProcesses`: the parent column. -/
def genProcesses.parent (parent_pid : List (Int × Int)) (pid : Int) (r : Row) : Row :=
  match mapFind pid parent_pid with
  | some ppid => r.set "parent" (lexical_cast ppid)
  | none => r.set "parent" "-1".toList

/-- Lines 286-308 of `genProcesses`: the resource usage columns. -/
def genProcesses.rusage (rusage_info_data : Option rusage_info_v2) (r : Row) : Row :=
  match rusage_info_data with
  | some d =>
    let r := r.set "wired_size" (lexical_cast d.ri_wired_size)
    let r := r.set "resident_size" (lexical_cast d.ri_resident_size)
    let r := r.set "phys_footprint" (lexical_cast d.ri_phys_footprint)
    let r := r.set "user_time" (lexical_cast (d.ri_user_time / 1000000 : Nat))
    let r := r.set "system_time" (lexical_cast (d.ri_system_time / 1000000 : Nat))
    r.set "start_time" (lexical_cast d.ri_proc_start_abstime)
  | none =>
    let r := r.set "wired_size" "-1".toList
    let r := r.set "resident_size" "-1".toList
    let r := r.set "phys_footprint" "-1".toList
    let r := r.set "user_time" "-1".toList
    let r := r.set "system_time" "-1".toList
    r.set "start_time" "-1".toList

/-- Lines 246-310 of `genProcesses`: the row of one pid. -/
def genProcesses.row (k : Kernel) (ext : Helpers) (parent_pid : List (Int × Int))
    (argmax : Nat) (pid : Int) : Except Fault Row :=
  let r : Row := []
  let r := r.set "pid" (lexical_cast pid)
  let path := getProcPath (k.pidpath pid)
  let r := r.set "path" path
  let r := r.set "name" (ext.filename path)
  match getProcArgs (k.procargs2 pid) argmax with
  | .error e => .error e
  | .ok args =>
    let cmdline := trim (join " ".toList args)
    let r := r.set "cmdline" cmdline
    let r := genProcRootAndCWD (k.vnodepathinfo pid) r
    let r := genProcesses.cred (k.shortbsdinfo pid) r
    let r := genProcesses.parent parent_pid pid r
    let r := r.set "on_disk" (ext.pathExists path)
    .ok (genProcesses.rusage (k.rusage pid) r)

/-- The loop of lines 240-311 of `genProcesses` over the pids still to visit. -/
def genProcesses.loop (context : QueryContext) (k : Kernel) (ext : Helpers)
    (parent_pid : List (Int × Int)) (argmax : Nat) :
    List Int → QueryData → Except Fault QueryData
  | [], results => .ok results
  | pid :: rest, results =>
    if !context.pidMatches pid then genProcesses.loop context k ext parent_pid argmax rest results
    else
      match genProcesses.row k ext parent_pid argmax pid with
      | .error e => .error e
      | .ok r => genProcesses.loop context k ext parent_pid argmax rest (results ++ [r])

/-- The function `genProcesses` (lines 233-314). -/
def genProcesses (context : QueryContext) (k : Kernel) (ext : Helpers) :
    Except Fault QueryData :=
  let pidlist := getProcList context k.listpids
  let parent_pid := getParentMap k.kern_proc pidlist
  let argmax := genMaxArgs k.kern_argmax
  genProcesses.loop context k ext parent_pid argmax pidlist []

/-- The loop of lines 328-336 of `genProcessEnvs` over the entries of one map. -/
def genProcessEnvs.rows (pid : Int) : StrMap → QueryData → QueryData
  | [], results => results
  | (key, value) :: env, results =>
    let r : Row := []
    let r := r.set "pid" (lexical_cast pid)
    let r := r.set "key" key
    let r := r.set "value" value
    genProcessEnvs.rows pid env (results ++ [r])

/-- The loop of lines 321-337 of `genProcessEnvs` over the pids still to visit. -/
def genProcessEnvs.loop (context : QueryContext) (k : Kernel) (argmax : Nat) :
    List Int → QueryData → Except Fault QueryData
  | [], results => .ok results
  | pid :: rest, results =>
    if !context.pidMatches pid then genProcessEnvs.loop context k argmax rest results
    else
      match getProcEnv (k.procargs2 pid) argmax with
      | .error e => .error e
      | .ok env => genProcessEnvs.loop context k argmax rest (genProcessEnvs.rows pid env results)

/-- The function `genProcessEnvs` (lines 316-340). -/
def genProcessEnvs (context : QueryContext) (k : Kernel) : Except Fault QueryData :=
  let pidlist := getProcList context k.listpids
  let argmax := genMaxArgs k.kern_argmax
  genProcessEnvs.loop context k argmax pidlist []

/-! ## Well-formed containers -/

/-- A strict total order given as a boolean test, what `std::map` and `std::set` ask
of their comparison. -/
structure StrictTotal {K : Type} (lt : K → K → Bool) : Prop where
  irrefl : ∀ a, lt a a = false
  trans : ∀ a b c, lt a b = true → lt b c = true → lt a c = true
  total : ∀ a b, lt a b = false → a ≠ b → lt b a = true

/-- The keys of a map are strictly ascending: it is a well-formed `std::map`,
in particular no key occurs twice. -/
def KeysSorted {K V : Type} (lt : K → K → Bool) (m : List (K × V)) : Prop :=
  (m.map Prod.fst).Pairwise (fun a b => lt a b = true)

/-! ## Reference definitions, from the words of the specification -/

/-- The name of an environment string: the part before its first `=`. -/
def envName (s : CString) : CString := s.takeWhile (fun c => c != '=')

/-- The value of an environment string: everything after its first `=`. -/
def envValue (s : CString) : CString := (s.dropWhile (fun c => c != '=')).drop 1

/-- The environment map holding the entries of the strings of `E`, the leftmost
string winning for a repeated name. -/
def envOf (E : List CString) : StrMap :=
  E.foldr (fun s env => mapSet strLt (envName s) (envValue s) env) []

/-- The null-terminated strings of a buffer in buffer order, `cur` holding (reversed)
the characters read since the last terminator; characters after the last
terminator form no string. -/
def cStrings.go : List Char → CString → List CString
  | [], _ => []
  | c :: rest, cur =>
    if c = NUL then cur.reverse :: cStrings.go rest [] else cStrings.go rest (c :: cur)

/-- The non-empty null-terminated strings of a buffer, in buffer order. -/
def nonEmptyStrings (buffer : List Char) : List CString :=
  (cStrings.go buffer []).filter (fun s => !s.isEmpty)

/-- The buffer that holds the given strings back to back, each followed by its
terminator. -/
def packStrings : List CString → List Char
  | [] => []
  | s :: rest => s ++ NUL :: packStrings rest

/-- The set `C` of equality-constrained pids of a query context: line 29-33. -/
def QueryContext.equalityPids (context : QueryContext) : List Int :=
  if context.hasPidConstraint then context.pidEquals else []

/-- The pids the OS returned: the entries of the array that the size reported by the
second `proc_listpids` call covers. -/
def ProcListPids.returned (os : ProcListPids) : List Int :=
  (List.range (os.fillQuery.toNat / 4)).map os.pids

/-- The reference definition of the process enumerator, from the specification: the
constraint set verbatim when it is non-empty; else nothing when either pid-list
query reports a non-positive size; else the set (ascending, without repetition) of
the strictly positive pids the OS returned. -/
def getProcList_ref (C : List Int) (os : ProcListPids) : List Int :=
  if C ≠ [] then C
  else if os.sizeQuery ≤ 0 ∨ os.fillQuery ≤ 0 then []
  else ((os.returned.filter (fun p => decide (0 < p))).dedup).insertionSort (· ≤ ·)

/-! ## Example inputs -/

/-- A kernel on which every query fails. -/
def failingKernel : Kernel where
  listpids := ⟨0, 0, fun _ => 0⟩
  kern_proc := fun _ => none
  kern_argmax := none
  procargs2 := fun _ _ => none
  pidpath := fun _ => (0, [])
  vnodepathinfo := fun _ => none
  shortbsdinfo := fun _ => none
  rusage := fun _ => none

/-- Helpers for the examples: the path itself as file name, `-1` as existence flag. -/
def exampleHelpers : Helpers where
  filename := fun p => p
  pathExists := fun _ => "-1".toList

/-- A kernel with the one process 321, whose real ids are 501 and 20 and whose
effective ids are 0 and 0. -/
def setuidKernel : Kernel where
  listpids := ⟨4, 4, fun _ => 321⟩
  kern_proc := fun _ => some (648, 1)
  kern_argmax := some 262144
  procargs2 := fun _ _ => none
  pidpath := fun _ => (8, "/bin/foo".toList)
  vnodepathinfo := fun _ => none
  shortbsdinfo := fun _ => some { pbsi_uid := 0, pbsi_gid := 0, pbsi_ruid := 501, pbsi_rgid := 20 }
  rusage := fun _ => none

/-! # Theorems -/

/-! ## Containers -/

theorem char_toNat_inj {a b : Char} (h : a.toNat = b.toNat) : a = b := by
  apply Char.ext
  apply UInt32.ext
  exact h

theorem strLt_irrefl : ∀ a : CString, strLt a a = false
  | [] => rfl
  | a :: as => by simp [strLt, strLt_irrefl as]

theorem strLt_trans : ∀ a b c : CString, strLt a b = true → strLt b c = true → strLt a c = true
  | [], [], _, h, _ => by simp [strLt] at h
  | [], _ :: _, [], _, h => by simp [strLt] at h
  | [], _ :: _, _ :: _, _, _ => by simp [strLt]
  | _ :: _, [], _, h, _ => by simp [strLt] at h
  | _ :: _, _ :: _, [], _, h => by simp [strLt] at h
  | a :: as, b :: bs, c :: cs, h1, h2 => by
    simp only [strLt] at h1 h2 ⊢
    split_ifs at h1 h2 ⊢ <;> first | rfl | omega | exact strLt_trans as bs cs h1 h2

theorem strLt_total : ∀ a b : CString, strLt a b = false → a ≠ b → strLt b a = true
  | [], [], _, h => absurd rfl h
  | [], _ :: _, h, _ => by simp [strLt] at h
  | _ :: _, [], _, _ => by simp [strLt]
  | a :: as, b :: bs, h1, h2 => by
    simp only [strLt] at h1 ⊢
    split_ifs at h1 ⊢ <;> first | rfl | omega | skip
    have hab : a = b := char_toNat_inj (by omega)
    subst hab
    exact strLt_total as bs h1 (fun h => h2 (by rw [h]))

theorem strLt_strictTotal : StrictTotal strLt := ⟨strLt_irrefl, strLt_trans, strLt_total⟩

theorem intLt_strictTotal : StrictTotal intLt := by
  refine ⟨?_, ?_, ?_⟩ <;> intros <;> simp [intLt] at * <;> omega

theorem mapFind_mapSet {K V : Type} [DecidableEq K] (lt : K → K → Bool) (k k' : K) (v : V)
    (m : List (K × V)) :
    mapFind k (mapSet lt k' v m) = if k = k' then some v else mapFind k m := by
  induction m with
  | nil => simp [mapSet, mapFind]
  | cons p m ih =>
    obtain ⟨k1, v1⟩ := p
    simp only [mapSet]
    split_ifs with h1 h2 h3 h4 <;> simp_all [mapFind]

theorem mem_mapSet {K V : Type} [DecidableEq K] (lt : K → K → Bool) (k : K) (v : V)
    (m : List (K × V)) (p : K × V) :
    p ∈ mapSet lt k v m → p = (k, v) ∨ p ∈ m := by
  induction m with
  | nil => simp [mapSet]
  | cons q m ih =>
    obtain ⟨k1, v1⟩ := q
    simp only [mapSet]
    split_ifs with h1 h2
    · simp only [List.mem_cons]; tauto
    · subst h2; simp only [List.mem_cons]; tauto
    · simp only [List.mem_cons]
      rintro (h | h)
      · exact Or.inr (Or.inl h)
      · rcases ih h with h | h
        · exact Or.inl h
        · exact Or.inr (Or.inr h)

theorem keysSorted_mapSet {K V : Type} [DecidableEq K] {lt : K → K → Bool}
    (hlt : StrictTotal lt) (k : K) (v : V) (m : List (K × V)) (hm : KeysSorted lt m) :
    KeysSorted lt (mapSet lt k v m) := by
  induction m with
  | nil => simp [mapSet, KeysSorted]
  | cons q m ih =>
    obtain ⟨k1, v1⟩ := q
    have hm' := hm
    simp only [KeysSorted, List.map_cons, List.pairwise_cons] at hm'
    simp only [mapSet]
    split_ifs with h1 h2
    · simp only [KeysSorted, List.map_cons, List.pairwise_cons]
      refine ⟨?_, hm'⟩
      intro a ha
      rcases List.mem_cons.1 ha with rfl | ha
      · exact h1
      · exact hlt.trans _ _ _ h1 (hm'.1 a ha)
    · simpa [KeysSorted] using hm'
    · have ih' := ih hm'.2
      simp only [KeysSorted, List.map_cons, List.pairwise_cons]
      refine ⟨?_, ih'⟩
      intro a ha
      obtain ⟨⟨a1, b1⟩, hp, rfl⟩ := List.mem_map.1 ha
      rcases mem_mapSet lt k v m _ hp with h | h
      · have : a1 = k := congrArg Prod.fst h
        subst this
        exact hlt.total _ _ (by simpa using h1) h2
      · exact hm'.1 a1 (List.mem_map.2 ⟨_, h, rfl⟩)

theorem mem_of_mapFind {K V : Type} [DecidableEq K] (k : K) (v : V) (m : List (K × V))
    (h : mapFind k m = some v) : (k, v) ∈ m := by
  induction m with
  | nil => simp [mapFind] at h
  | cons q m ih =>
    obtain ⟨k1, v1⟩ := q
    simp only [mapFind] at h
    split_ifs at h with h1
    · subst h1; simp at h; subst h; simp
    · exact List.mem_cons_of_mem _ (ih h)

theorem mapFind_of_mem {K V : Type} [DecidableEq K] {lt : K → K → Bool}
    (hlt : StrictTotal lt) (k : K) (v : V) (m : List (K × V)) (hm : KeysSorted lt m)
    (h : (k, v) ∈ m) : mapFind k m = some v := by
  induction m with
  | nil => simp at h
  | cons q m ih =>
    obtain ⟨k1, v1⟩ := q
    simp only [KeysSorted, List.map_cons, List.pairwise_cons] at hm
    simp only [mapFind]
    rcases List.mem_cons.1 h with h0 | h0
    · simp only [Prod.mk.injEq] at h0
      simp [h0.1, h0.2]
    · split_ifs with h1
      · subst h1
        have := hm.1 k (List.mem_map.2 ⟨(k, v), h0, rfl⟩)
        rw [hlt.irrefl] at this
        exact absurd this (by simp)
      · exact ih hm.2 h0

theorem filter_key_of_sorted {K V : Type} [DecidableEq K] {lt : K → K → Bool}
    (hlt : StrictTotal lt) (k : K) (m : List (K × V)) (hm : KeysSorted lt m) :
    m.filter (fun p => decide (p.1 = k)) = (mapFind k m).toList.map (fun v => (k, v)) := by
  induction m with
  | nil => simp [mapFind]
  | cons q m ih =>
    obtain ⟨k1, v1⟩ := q
    simp only [KeysSorted, List.map_cons, List.pairwise_cons] at hm
    have ih' := ih hm.2
    simp only [mapFind, List.filter_cons]
    by_cases h1 : k = k1
    · subst h1
      have hnone : mapFind k m = none := by
        cases hf : mapFind k m with
        | none => rfl
        | some w =>
          have := hm.1 k (List.mem_map.2 ⟨(k, w), mem_of_mapFind k w m hf, rfl⟩)
          rw [hlt.irrefl] at this
          exact absurd this (by simp)
      rw [hnone] at ih'
      simp [ih']
    · have h2 : ¬ k1 = k := fun h => h1 h.symm
      simp [h1, h2, ih']

theorem mem_setInsert (x p : Int) (s : List Int) : p ∈ setInsert x s ↔ p = x ∨ p ∈ s := by
  induction s with
  | nil => simp [setInsert]
  | cons y s ih =>
    simp only [setInsert]
    split_ifs with h1 h2
    · simp
    · subst h2; simp
    · simp only [List.mem_cons, ih]; tauto

theorem sorted_setInsert (x : Int) (s : List Int) (hs : s.Pairwise (· < ·)) :
    (setInsert x s).Pairwise (· < ·) := by
  induction s with
  | nil => simp [setInsert]
  | cons y s ih =>
    have hs' := List.pairwise_cons.1 hs
    simp only [setInsert]
    split_ifs with h1 h2
    · refine List.pairwise_cons.2 ⟨?_, hs⟩
      intro a ha
      rcases List.mem_cons.1 ha with rfl | ha
      · exact h1
      · exact lt_trans h1 (hs'.1 a ha)
    · exact hs
    · refine List.pairwise_cons.2 ⟨?_, ih hs'.2⟩
      intro a ha
      rcases (mem_setInsert x a s).1 ha with rfl | ha
      · omega
      · exact hs'.1 a ha

theorem StrMap.get_set (m : StrMap) (k k' : String) (v : CString) :
    (m.set k' v).get k = if k.toList = k'.toList then some v else m.get k := by
  simp only [StrMap.get, StrMap.set, mapFind_mapSet]

/-! ## Process enumerator -/

theorem mem_collect (pids : Nat → Int) (idxs : List Nat) (acc : List Int) (p : Int) :
    p ∈ getProcList.collect pids idxs acc ↔ p ∈ acc ∨ (0 < p ∧ p ∈ idxs.map pids) := by
  induction idxs generalizing acc with
  | nil => simp [getProcList.collect]
  | cons i idxs ih =>
    simp only [getProcList.collect]
    split_ifs with h
    · rw [ih]
      simp only [List.map_cons, List.mem_cons]
      constructor
      · rintro (h1 | ⟨h1, h2⟩)
        · exact Or.inl h1
        · exact Or.inr ⟨h1, Or.inr h2⟩
      · rintro (h1 | ⟨h1, h2 | h2⟩)
        · exact Or.inl h1
        · subst h2; omega
        · exact Or.inr ⟨h1, h2⟩
    · rw [ih, mem_setInsert]
      simp only [List.map_cons, List.mem_cons]
      constructor
      · rintro ((h1 | h1) | ⟨h1, h2⟩)
        · subst h1; exact Or.inr ⟨by omega, Or.inl rfl⟩
        · exact Or.inl h1
        · exact Or.inr ⟨h1, Or.inr h2⟩
      · rintro (h1 | ⟨h1, h2 | h2⟩)
        · exact Or.inl (Or.inr h1)
        · exact Or.inl (Or.inl h2)
        · exact Or.inr ⟨h1, h2⟩

theorem sorted_collect (pids : Nat → Int) (idxs : List Nat) (acc : List Int)
    (hacc : acc.Pairwise (· < ·)) : (getProcList.collect pids idxs acc).Pairwise (· < ·) := by
  induction idxs generalizing acc with
  | nil => simpa [getProcList.collect] using hacc
  | cons i idxs ih =>
    simp only [getProcList.collect]
    split_ifs with h
    · exact ih acc hacc
    · exact ih _ (sorted_setInsert _ _ hacc)

theorem eq_of_sorted_of_mem_iff (l1 l2 : List Int) (h1 : l1.Pairwise (· < ·))
    (h2 : l2.Sorted (· ≤ ·)) (hn2 : l2.Nodup) (hmem : ∀ p, p ∈ l1 ↔ p ∈ l2) : l1 = l2 := by
  have hn1 : l1.Nodup := h1.imp (fun h => ne_of_lt h)
  have hperm : l1.Perm l2 := (List.perm_ext_iff_of_nodup hn1 hn2).2 hmem
  exact List.eq_of_perm_of_sorted hperm (h1.imp (fun h => le_of_lt h)) h2

/-- The three cases of `getProcList`: a non-empty constraint set is returned verbatim;
without one, a non-positive size of either query gives the empty set; otherwise the
result is ascending and holds exactly the strictly positive pids the OS returned. -/
theorem getProcList_cases (context : QueryContext) (os : ProcListPids) :
    (context.equalityPids ≠ [] → getProcList context os = context.equalityPids) ∧
    (context.equalityPids = [] → (os.sizeQuery ≤ 0 ∨ os.fillQuery ≤ 0) →
      getProcList context os = []) ∧
    (context.equalityPids = [] → 0 < os.sizeQuery → 0 < os.fillQuery →
      (getProcList context os).Pairwise (· < ·) ∧
      ∀ p, p ∈ getProcList context os ↔ 0 < p ∧ p ∈ os.returned) := by
  refine ⟨?_, ?_, ?_⟩
  · intro hC
    have : context.equalityPids.isEmpty = false := by
      cases h : context.equalityPids with
      | nil => exact absurd h hC
      | cons a l => rfl
    simp only [QueryContext.equalityPids] at this
    simp [getProcList, QueryContext.equalityPids, this]
  · intro hC hfail
    simp only [QueryContext.equalityPids] at hC
    simp only [getProcList, hC, List.isEmpty_nil, Bool.not_true]
    rcases hfail with h | h
    · simp [h]
    · by_cases h1 : os.sizeQuery ≤ 0
      · simp [h1]
      · simp [h1, h]
  · intro hC h1 h2
    simp only [QueryContext.equalityPids] at hC
    have e : getProcList context os =
        getProcList.collect os.pids (List.range (os.fillQuery.toNat / 4)) [] := by
      simp [getProcList, hC, not_le.2 h1, not_le.2 h2]
    rw [e]
    refine ⟨sorted_collect _ _ _ List.Pairwise.nil, ?_⟩
    intro p
    rw [mem_collect]
    simp [ProcListPids.returned]

theorem getProcList_pos_or_constraint (context : QueryContext) (os : ProcListPids) (p : Int)
    (hp : p ∈ getProcList context os) : 0 < p ∨ p ∈ context.equalityPids := by
  obtain ⟨h1, h2, h3⟩ := getProcList_cases context os
  by_cases hC : context.equalityPids = []
  · by_cases hfail : os.sizeQuery ≤ 0 ∨ os.fillQuery ≤ 0
    · rw [h2 hC hfail] at hp
      simp at hp
    · have a1 : 0 < os.sizeQuery := by
        by_contra h; exact hfail (Or.inl (not_lt.1 h))
      have a2 : 0 < os.fillQuery := by
        by_contra h; exact hfail (Or.inr (not_lt.1 h))
      exact Or.inl (((h3 hC a1 a2).2 p).1 hp).1
  · rw [h1 hC] at hp
    exact Or.inr hp

/-- Claim C5: `getProcList` equals the reference definition for every query context and
every outcome of the pid-list queries; stated also by cases: a non-empty constraint
set is returned verbatim, a non-positive size of either query gives the empty set,
and otherwise the result is ascending and holds exactly the strictly positive pids
the OS returned. The constraint set 7, 42 gives 7, 42 whatever the OS reports. -/
theorem getProcList_eq_ref (context : QueryContext) (os : ProcListPids) :
    getProcList context os = getProcList_ref context.equalityPids os ∧
    (context.equalityPids ≠ [] → getProcList context os = context.equalityPids) ∧
    (context.equalityPids = [] → (os.sizeQuery ≤ 0 ∨ os.fillQuery ≤ 0) →
      getProcList context os = []) ∧
    (context.equalityPids = [] → 0 < os.sizeQuery → 0 < os.fillQuery →
      (getProcList context os).Pairwise (· < ·) ∧
      ∀ p, p ∈ getProcList context os ↔ 0 < p ∧ p ∈ os.returned) ∧
    (∀ (pidMatches : Int → Bool), getProcList ⟨true, [7, 42], pidMatches⟩ os = [7, 42]) := by
  have hcases := getProcList_cases context os
  refine ⟨?_, hcases.1, hcases.2.1, hcases.2.2, ?_⟩
  · unfold getProcList_ref
    by_cases hC : context.equalityPids = []
    · by_cases hfail : os.sizeQuery ≤ 0 ∨ os.fillQuery ≤ 0
      · rw [hcases.2.1 hC hfail]
        simp [hC, hfail]
      · have h1 : 0 < os.sizeQuery := by
          by_contra h; exact hfail (Or.inl (not_lt.1 h))
        have h2 : 0 < os.fillQuery := by
          by_contra h; exact hfail (Or.inr (not_lt.1 h))
        obtain ⟨hs, hm⟩ := hcases.2.2 hC h1 h2
        simp only [hC, ne_eq, not_true_eq_false, if_false, hfail]
        apply eq_of_sorted_of_mem_iff _ _ hs (List.sorted_insertionSort _ _)
        · exact (List.perm_insertionSort _ _).nodup_iff.2 (List.nodup_dedup _)
        · intro p
          rw [hm, (List.perm_insertionSort _ _).mem_iff, List.mem_dedup, List.mem_filter]
          simp [and_comm]
    · rw [hcases.1 hC]
      simp [hC]
  · intro pidMatches
    simp [getProcList]

/-- Witness of `getProcList_eq_ref`: no constraint, the OS returning 0, 5, -3, 2. -/
theorem getProcList_eq_ref_witness :
    getProcList ⟨false, [], fun _ => true⟩ ⟨16, 16, fun i => [0, 5, -3, 2].getD i 0⟩ =
      getProcList_ref (QueryContext.equalityPids ⟨false, [], fun _ => true⟩)
        ⟨16, 16, fun i => [0, 5, -3, 2].getD i 0⟩ ∧
    getProcList_ref [] ⟨16, 16, fun i => [0, 5, -3, 2].getD i 0⟩ = [2, 5] :=
  ⟨(getProcList_eq_ref ⟨false, [], fun _ => true⟩
      ⟨16, 16, fun i => [0, 5, -3, 2].getD i 0⟩).1, by decide⟩

/-! ## Raw argument / environment fetcher -/

theorem walk_ne_outOfFuel (mem : List Char) (argmax : Nat) :
    ∀ (fuel cp : Nat) (st : RawArgs), 0 < fuel → argmax < cp + fuel →
      getProcRawArgs.walk mem argmax fuel cp st ≠ .error .outOfFuel := by
  intro fuel
  induction fuel with
  | zero => intro cp st h; omega
  | succ f ih =>
    intro cp st _ hfuel
    simp only [getProcRawArgs.walk]
    cases c_str mem cp with
    | none => simp
    | some s =>
      simp only
      cases (if s.length > 0 then st.args ++ [s] else st.args).getLast? with
      | none => simp
      | some back =>
        simp only
        split_ifs <;> first | exact ih _ _ (by omega) (by omega) | simp

/-- The step budget of `getProcRawArgs` is never exhausted: the model returns what the
loop returns. -/
theorem getProcRawArgs_fuel (sysctl : ProcArgs2) (argmax : Nat) :
    getProcRawArgs.traced sysctl argmax ≠ .error .outOfFuel ∧
      getProcRawArgs sysctl argmax ≠ .error .outOfFuel := by
  have h1 : getProcRawArgs.traced sysctl argmax ≠ .error .outOfFuel := by
    unfold getProcRawArgs.traced
    cases sysctl argmax with
    | none => simp
    | some q => exact walk_ne_outOfFuel _ _ _ _ _ (by omega) (by omega)
  refine ⟨h1, ?_⟩
  unfold getProcRawArgs
  cases h : getProcRawArgs.traced sysctl argmax with
  | error e =>
    simp only [Except.map]
    intro he
    apply h1
    rw [h]
    injection he with he
    rw [he]
  | ok r => simp [Except.map]

theorem takeWhile_until_nul (s post : List Char) (hs : NUL ∉ s) :
    (s ++ NUL :: post).takeWhile (fun c => c != NUL) = s := by
  induction s with
  | nil => simp [List.takeWhile_cons]
  | cons x xs ih =>
    simp only [List.mem_cons, not_or] at hs
    have hxn : ¬ x = NUL := fun e => hs.1 e.symm
    have hx : (x != NUL) = true := by simp [hxn]
    simp only [List.cons_append, List.takeWhile_cons, hx, if_true, ih hs.2]

theorem c_str_packed (pre s post : List Char) (hs : NUL ∉ s) :
    c_str (pre ++ (s ++ NUL :: post)) pre.length = some s := by
  simp only [c_str, List.drop_left, takeWhile_until_nul s post hs]
  simp

theorem walk_packed (rest : List Char) (argmax : Nat) :
    ∀ (strs : List CString) (pre : List Char) (fuel : Nat) (st : RawArgs), strs ≠ [] →
      (∀ s ∈ strs, s ≠ [] ∧ NUL ∉ s) → argmax = pre.length + (packStrings strs).length →
      argmax < pre.length + fuel →
      ∃ r, getProcRawArgs.walk (pre ++ (packStrings strs ++ rest)) argmax fuel pre.length st =
        .ok r ∧ r.args = st.args ++ strs := by
  intro strs
  induction strs with
  | nil => intro pre fuel st h; exact absurd rfl h
  | cons s post ih =>
    intro pre fuel st _ hstr hlen hfuel
    obtain ⟨hs1, hs2⟩ := hstr s (List.mem_cons_self _ _)
    have hspos : 0 < s.length := List.length_pos.2 hs1
    simp only [packStrings, List.length_append, List.length_cons] at hlen
    cases fuel with
    | zero => omega
    | succ f =>
      have hc : c_str (pre ++ (packStrings (s :: post) ++ rest)) pre.length = some s := by
        simp only [packStrings, List.append_assoc, List.cons_append]
        exact c_str_packed pre s _ hs2
      have hback : (st.args ++ [s]).getLast? = some s := by simp
      simp only [getProcRawArgs.walk, hc, gt_iff_lt, hspos, if_true, hback]
      cases post with
      | nil =>
        simp only [packStrings, List.length_nil] at hlen
        have : ¬ pre.length + (s.length + 1) < argmax := by omega
        simp only [this, if_false]
        exact ⟨_, rfl, rfl⟩
      | cons t post' =>
        have hlt : pre.length + (s.length + 1) < argmax := by
          simp only [packStrings, List.length_append, List.length_cons] at hlen
          omega
        simp only [hlt, if_true]
        have hmem : pre ++ (packStrings (s :: t :: post') ++ rest) =
            (pre ++ (s ++ [NUL])) ++ (packStrings (t :: post') ++ rest) := by
          simp [packStrings]
        have hcp : pre.length + (s.length + 1) = (pre ++ (s ++ [NUL])).length := by simp
        rw [hmem, hcp]
        obtain ⟨r, hr, hargs⟩ := ih (pre ++ (s ++ [NUL])) f
          ⟨st.args ++ [s], st.reads ++ List.range' pre.length (s.length + 1)⟩ (by simp)
          (fun u hu => hstr u (List.mem_cons_of_mem _ hu))
          (by simp only [List.length_append, List.length_cons, List.length_nil]; omega)
          (by simp only [List.length_append, List.length_cons, List.length_nil]; omega)
        exact ⟨r, hr, by rw [hargs]; simp⟩

/-- Where the decoder is right: a fetched buffer that packs non-empty strings back to
back, one terminator after each and no empty string between them, decodes to
exactly these strings, whatever follows the buffer in memory. -/
theorem getProcRawArgs_packed (strs : List CString) (rest : List Char) (cap : Nat)
    (hne : strs ≠ []) (hstr : ∀ s ∈ strs, s ≠ [] ∧ NUL ∉ s) :
    getProcRawArgs (fun _ => some (packStrings strs ++ rest, (packStrings strs).length)) cap =
      .ok strs := by
  obtain ⟨r, hr, hargs⟩ := walk_packed rest (packStrings strs).length strs []
    ((packStrings strs).length + 1) ⟨[], []⟩ hne hstr (by simp) (by simp)
  simp only [List.nil_append, List.length_nil] at hr hargs
  simp only [getProcRawArgs, getProcRawArgs.traced, hr, Except.map, hargs]

/-- Claim C2, evaluated on the code: the buffer `ab\0\0cd\0` (7 bytes) begins with a
non-empty string and ends with a terminator, and its non-empty strings are `ab`,
`cd`; `getProcRawArgs` returns `ab` alone. After the empty string at offset 3 the
cursor advances by the length of `args.back()`, here `ab`, plus one, to offset 6,
and `cd` is stepped over. -/
theorem getProcRawArgs_loses_string_after_empty :
    ("ab".toList ++ [NUL, NUL] ++ "cd".toList ++ [NUL]).length = 7 ∧
    ("ab".toList ++ [NUL, NUL] ++ "cd".toList ++ [NUL]).head? = some 'a' ∧
    ("ab".toList ++ [NUL, NUL] ++ "cd".toList ++ [NUL]).getLast? = some NUL ∧
    nonEmptyStrings ("ab".toList ++ [NUL, NUL] ++ "cd".toList ++ [NUL]) =
      ["ab".toList, "cd".toList] ∧
    getProcRawArgs (fun _ => some ("ab".toList ++ [NUL, NUL] ++ "cd".toList ++ [NUL], 7)) 7 =
      .ok ["ab".toList] ∧
    getProcRawArgs.traced
        (fun _ => some ("ab".toList ++ [NUL, NUL] ++ "cd".toList ++ [NUL], 7)) 7 =
      .ok ⟨["ab".toList], [0, 1, 2, 3, 6]⟩ := by
  refine ⟨by decide, by decide, by decide, by decide, by rfl, by rfl⟩

theorem walk_all_nul (n : Nat) (rest : List Char) (argmax fuel : Nat) :
    getProcRawArgs.walk (List.replicate (n + 1) NUL ++ rest) argmax (fuel + 1) 0 ⟨[], []⟩ =
      .error .backOfEmptyVector := by
  simp [getProcRawArgs.walk, c_str, List.replicate_succ, List.takeWhile]

/-- A buffer of `n + 1` terminators, whatever follows it in memory: `getProcRawArgs`
evaluates `args.back()` on the empty vector. -/
theorem getProcRawArgs_all_nul (n : Nat) (rest : List Char) (cap : Nat) :
    getProcRawArgs (fun _ => some (List.replicate (n + 1) NUL ++ rest, n + 1)) cap =
      .error .backOfEmptyVector := by
  simp only [getProcRawArgs, getProcRawArgs.traced, walk_all_nul]
  rfl

/-- Claim C7, evaluated on the code: on a fetched buffer that is one terminator, and on
one of three terminators, `getProcRawArgs` reads the empty string, appends nothing
and evaluates `args.back()` on the empty vector, which is undefined; neither it nor
`getProcArgs` nor `getProcEnv` returns the empty result, although both partitioners
map the empty sequence to the empty result. -/
theorem getProcRawArgs_empty_buffer_back_of_empty :
    getProcRawArgs (fun _ => some ([NUL], 1)) 1 = .error .backOfEmptyVector ∧
    getProcArgs (fun _ => some ([NUL], 1)) 1 = .error .backOfEmptyVector ∧
    getProcEnv (fun _ => some ([NUL], 1)) 1 = .error .backOfEmptyVector ∧
    getProcRawArgs (fun _ => some ([NUL, NUL, NUL], 3)) 3 = .error .backOfEmptyVector ∧
    getProcRawArgs (fun _ => some ([NUL], 1)) 1 ≠ .ok [] ∧
    getProcArgs.ofRawArgs [] = [] ∧ getProcEnv.ofArgs [] = [] := by
  refine ⟨by rfl, by rfl, by rfl, by rfl, ?_, by rfl, by rfl⟩
  intro h
  have h' : getProcRawArgs (fun _ => some ([NUL], 1)) 1 = .error .backOfEmptyVector := by rfl
  rw [h'] at h
  exact Except.noConfusion h

theorem takeWhile_length_le (l : List Char) (j : Nat) (h : l[j]? = some NUL) :
    (l.takeWhile (fun c => c != NUL)).length ≤ j := by
  induction l generalizing j with
  | nil => simp at h
  | cons x xs ih =>
    cases j with
    | zero =>
      simp only [List.getElem?_cons_zero, Option.some.injEq] at h
      simp [List.takeWhile_cons, h]
    | succ j =>
      simp only [List.getElem?_cons_succ] at h
      have := ih j h
      simp only [List.takeWhile_cons]
      split_ifs
      · simp only [List.length_cons]; omega
      · simp

theorem c_str_in_buffer (mem : List Char) (argmax cp : Nat) (hcp : cp < argmax)
    (hlast : mem[argmax - 1]? = some NUL) :
    ∃ s, c_str mem cp = some s ∧ cp + s.length + 1 ≤ argmax ∧
      (mem[cp]? ≠ some NUL → 0 < s.length) := by
  have hget : (mem.drop cp)[argmax - 1 - cp]? = some NUL := by
    rw [List.getElem?_drop]
    have : cp + (argmax - 1 - cp) = argmax - 1 := by omega
    rw [this]; exact hlast
  have hmem : NUL ∈ mem.drop cp := List.getElem?_mem hget
  refine ⟨(mem.drop cp).takeWhile (fun c => c != NUL), by simp [c_str, hmem], ?_, ?_⟩
  · have := takeWhile_length_le _ _ hget
    omega
  · intro hne
    cases hd : mem.drop cp with
    | nil => rw [hd] at hmem; simp at hmem
    | cons x xs =>
      have hx : mem[cp]? = some x := by
        have := congrArg (fun l => l[0]?) hd
        simpa [List.getElem?_drop] using this
      have hxn : x ≠ NUL := fun e => hne (by rw [hx, e])
      simp [List.takeWhile_cons, hxn]

theorem walk_in_bounds (mem : List Char) (argmax : Nat)
    (hlast : mem[argmax - 1]? = some NUL) :
    ∀ (fuel cp : Nat) (st : RawArgs), cp < argmax → argmax < cp + fuel →
      (st.args ≠ [] ∨ mem[cp]? ≠ some NUL) → (∀ i ∈ st.reads, i < argmax) →
      ∃ r, getProcRawArgs.walk mem argmax fuel cp st = .ok r ∧ ∀ i ∈ r.reads, i < argmax := by
  intro fuel
  induction fuel with
  | zero => intro cp st h1 h2; omega
  | succ f ih =>
    intro cp st hcp hfuel hargs hreads
    obtain ⟨s, hs, hlen, hpos⟩ := c_str_in_buffer mem argmax cp hcp hlast
    have hreads' : ∀ i ∈ st.reads ++ List.range' cp (s.length + 1), i < argmax := by
      intro i hi
      rcases List.mem_append.1 hi with hi | hi
      · exact hreads i hi
      · have := List.mem_range'_1.1 hi
        omega
    have hne : (if s.length > 0 then st.args ++ [s] else st.args) ≠ [] := by
      split_ifs with h
      · simp
      · rcases hargs with h' | h'
        · exact h'
        · exact absurd (hpos h') h
    obtain ⟨back, hback⟩ : ∃ b, (if s.length > 0 then st.args ++ [s] else st.args).getLast? =
        some b := by
      cases hg : (if s.length > 0 then st.args ++ [s] else st.args).getLast? with
      | none => exact absurd (List.getLast?_eq_none_iff.1 hg) hne
      | some b => exact ⟨b, rfl⟩
    simp only [getProcRawArgs.walk, hs, hback]
    by_cases hlt : cp + (back.length + 1) < argmax
    · simp only [hlt, if_true]
      exact ih _ _ hlt (by omega) (Or.inl hne) hreads'
    · simp only [hlt, if_false]
      exact ⟨_, rfl, hreads'⟩

/-- Claim C9 as amended: when the fetched buffer of `argmax` bytes begins with a
non-empty string and its last byte is a terminator, `getProcRawArgs` returns a
sequence and every offset it reads lies below `argmax`. -/
theorem getProcRawArgs_reads_in_bounds (sysctl : ProcArgs2) (cap : Nat) (mem : List Char)
    (argmax : Nat) (hfetch : sysctl cap = some (mem, argmax)) (hpos : 1 ≤ argmax)
    (hfirst : mem[0]? ≠ some NUL) (hlast : mem[argmax - 1]? = some NUL) :
    ∃ r, getProcRawArgs.traced sysctl cap = .ok r ∧ getProcRawArgs sysctl cap = .ok r.args ∧
      ∀ i ∈ r.reads, i < argmax := by
  obtain ⟨r, hr, hb⟩ := walk_in_bounds mem argmax hlast (argmax + 1) 0 ⟨[], []⟩
    (by omega) (by omega) (Or.inr hfirst) (by simp)
  refine ⟨r, ?_, ?_, hb⟩
  · simp only [getProcRawArgs.traced, hfetch, hr]
  · simp only [getProcRawArgs, getProcRawArgs.traced, hfetch, hr]
    rfl

/-- Witness of `getProcRawArgs_reads_in_bounds` on the buffer `ab\0-c\0`. -/
theorem getProcRawArgs_reads_in_bounds_witness :
    1 ≤ 6 ∧ ("ab".toList ++ NUL :: "-c".toList ++ [NUL])[0]? ≠ some NUL ∧
    ("ab".toList ++ NUL :: "-c".toList ++ [NUL])[6 - 1]? = some NUL ∧
    ∃ r, getProcRawArgs.traced
        (fun _ => some ("ab".toList ++ NUL :: "-c".toList ++ [NUL], 6)) 6 = .ok r ∧
      getProcRawArgs (fun _ => some ("ab".toList ++ NUL :: "-c".toList ++ [NUL], 6)) 6 =
        .ok r.args ∧
      ∀ i ∈ r.reads, i < 6 :=
  ⟨by decide, by decide, by decide,
    getProcRawArgs_reads_in_bounds
      (fun _ => some ("ab".toList ++ NUL :: "-c".toList ++ [NUL], 6)) 6
      ("ab".toList ++ NUL :: "-c".toList ++ [NUL]) 6 rfl (by decide) (by decide) (by decide)⟩

/-- Claim C9 refuted as stated: with a fetched buffer of 2 bytes `ab` whose string has
no terminator inside the buffer, followed in memory by `c\0`, the walk reads offsets
2 and 3 and returns `abc`; followed by nothing mapped, the read is a fault. -/
theorem getProcRawArgs_reads_past_buffer :
    getProcRawArgs.traced (fun _ => some ("ab".toList ++ "c".toList ++ [NUL], 2)) 2 =
      .ok ⟨["abc".toList], [0, 1, 2, 3]⟩ ∧
    ¬ (∀ i ∈ [0, 1, 2, 3], i < 2) ∧
    getProcRawArgs (fun _ => some ("ab".toList, 2)) 2 = .error .unterminatedString := by
  refine ⟨by rfl, by decide, by rfl⟩

/-! ## Argument / environment partitioner -/

theorem find_first_of_eq_none (c : Char) (s : CString) :
    find_first_of c s = none ↔ c ∉ s := by
  induction s with
  | nil => simp [find_first_of]
  | cons x xs ih =>
    simp only [find_first_of]
    split_ifs with h
    · simp [h]
    · simp only [Option.map_eq_none', ih, List.mem_cons, not_or]
      exact ⟨fun h' => ⟨fun e => h e.symm, h'⟩, fun h' => h'.2⟩

theorem find_first_of_eq_some (c : Char) (s : CString) (idx : Nat)
    (h : find_first_of c s = some idx) :
    s.take idx = s.takeWhile (fun x => x != c) ∧
      s.drop (idx + 1) = (s.dropWhile (fun x => x != c)).drop 1 := by
  induction s generalizing idx with
  | nil => simp [find_first_of] at h
  | cons x xs ih =>
    simp only [find_first_of] at h
    split_ifs at h with hx
    · simp only [Option.some.injEq] at h
      subst h
      simp [List.takeWhile, List.dropWhile, hx]
    · obtain ⟨j, hj, rfl⟩ := Option.map_eq_some'.1 h
      have := ih j hj
      have hb : (x != c) = true := by simp [hx]
      simp [List.takeWhile_cons, List.dropWhile_cons, hb, this.1, this.2]

theorem split_first (c : Char) (s : CString) (h : c ∈ s) :
    s.takeWhile (fun x => x != c) ++ c :: (s.dropWhile (fun x => x != c)).drop 1 = s ∧
      c ∉ s.takeWhile (fun x => x != c) := by
  induction s with
  | nil => simp at h
  | cons x xs ih =>
    by_cases hx : x = c
    · subst hx; simp [List.takeWhile, List.dropWhile]
    · have hc : c ∈ xs := by
        rcases List.mem_cons.1 h with h | h
        · exact absurd h.symm hx
        · exact h
      have := ih hc
      have hb : (x != c) = true := by simp [hx]
      simp only [List.takeWhile_cons, List.dropWhile_cons, hb, if_true, List.cons_append,
        List.mem_cons, not_or]
      exact ⟨by rw [this.1], fun e => hx e.symm, this.2⟩

theorem split_unique (c : Char) (k v : CString) (hk : c ∉ k) :
    (k ++ c :: v).takeWhile (fun x => x != c) = k ∧
      ((k ++ c :: v).dropWhile (fun x => x != c)).drop 1 = v := by
  induction k with
  | nil => simp [List.takeWhile, List.dropWhile]
  | cons x xs ih =>
    simp only [List.mem_cons, not_or] at hk
    have hx : ¬ x = c := fun e => hk.1 e.symm
    have := ih hk.2
    have hb : (x != c) = true := by simp [hx]
    simp only [List.cons_append, List.takeWhile_cons, List.dropWhile_cons, hb, if_true]
    exact ⟨by rw [this.1], this.2⟩

/-- Every decoded sequence splits as `A ++ E` with `E` its longest suffix of strings
that contain `=`: the hypotheses of the partitioner theorems cover every input. -/
theorem exists_trailing_run (S : List CString) :
    ∃ A E, S = A ++ E ∧ (∀ s ∈ E, '=' ∈ s) ∧ (∀ a, A.getLast? = some a → '=' ∉ a) := by
  induction S using List.reverseRecOn with
  | nil => exact ⟨[], [], rfl, by simp, by simp⟩
  | append_singleton S x ih =>
    by_cases hx : '=' ∈ x
    · obtain ⟨A, E, e, hE, hA⟩ := ih
      refine ⟨A, E ++ [x], by rw [e, List.append_assoc], ?_, hA⟩
      intro s hs
      rcases List.mem_append.1 hs with h | h
      · exact hE s h
      · rw [List.mem_singleton.1 h]; exact hx
    · refine ⟨S ++ [x], [], by simp, by simp, ?_⟩
      intro a ha
      simp only [List.getLast?_append, List.getLast?_singleton, Option.or,
        Option.some.injEq] at ha
      rw [← ha]; exact hx

theorem getProcEnv_scan_run (l1 l2 : List CString) (env : StrMap)
    (h1 : ∀ s ∈ l1, '=' ∈ s) :
    getProcEnv.scan (l1 ++ l2) env =
      getProcEnv.scan l2
        (l1.foldl (fun env s => mapSet strLt (envName s) (envValue s) env) env) := by
  induction l1 generalizing env with
  | nil => rfl
  | cons s l1 ih =>
    have hs : '=' ∈ s := h1 s (List.mem_cons_self _ _)
    simp only [List.cons_append, getProcEnv.scan, List.foldl_cons]
    cases hf : find_first_of '=' s with
    | none => exact absurd hs ((find_first_of_eq_none _ _).1 hf)
    | some idx =>
      obtain ⟨e1, e2⟩ := find_first_of_eq_some _ _ _ hf
      simp only [e1, e2]
      exact ih _ (fun t ht => h1 t (List.mem_cons_of_mem _ ht))

theorem getProcEnv_scan_stop (l : List CString) (env : StrMap)
    (h : ∀ a, l.head? = some a → '=' ∉ a) : getProcEnv.scan l env = env := by
  cases l with
  | nil => rfl
  | cons a l =>
    have := (find_first_of_eq_none '=' a).2 (h a rfl)
    simp [getProcEnv.scan, this]

theorem getProcEnv_ofArgs_eq (A E : List CString) (hE : ∀ s ∈ E, '=' ∈ s)
    (hA : ∀ a, A.getLast? = some a → '=' ∉ a) :
    getProcEnv.ofArgs (A ++ E) = envOf E := by
  unfold getProcEnv.ofArgs envOf
  rw [List.reverse_append, getProcEnv_scan_run _ _ _ (by simpa using hE),
    getProcEnv_scan_stop _ _ (by simpa using hA), List.foldl_reverse]

theorem mapFind_envOf (E : List CString) (k : CString) :
    mapFind k (envOf E) = (E.find? (fun s => decide (envName s = k))).map envValue := by
  induction E with
  | nil => rfl
  | cons s E ih =>
    simp only [envOf, List.foldr_cons, mapFind_mapSet, List.find?_cons]
    by_cases h : envName s = k
    · simp [h]
    · have h' : ¬ k = envName s := fun e => h e.symm
      simp only [h, h', if_false, decide_False]
      exact ih

theorem keysSorted_envOf (E : List CString) : KeysSorted strLt (envOf E) := by
  induction E with
  | nil => simp [envOf, KeysSorted]
  | cons s E ih => exact keysSorted_mapSet strLt_strictTotal _ _ _ ih

theorem mem_envOf_iff (E : List CString) (k v : CString) :
    (k, v) ∈ envOf E ↔
      ∃ s, E.find? (fun s => decide (envName s = k)) = some s ∧ envValue s = v := by
  constructor
  · intro h
    have := mapFind_of_mem strLt_strictTotal k v _ (keysSorted_envOf E) h
    rw [mapFind_envOf] at this
    exact Option.map_eq_some'.1 this
  · intro h
    apply mem_of_mapFind
    rw [mapFind_envOf]
    exact Option.map_eq_some'.2 h

/-- Claim C3: the environment map of `getProcEnv` holds exactly the entries of the
longest suffix `E` of the decoded sequence whose strings all contain `=`. Every
string of `E` splits at its first `=` into a name without `=` and a value; an entry
`(k, v)` is in the map exactly when the leftmost string of `E` named `k` has value
`v`; every entry is the split of a string of `E`, so nothing before `E` contributes;
every string of `E` has its name as a key; and when the names of `E` are distinct
the entries are exactly the splits of the strings of `E`. The two examples of the
specification are evaluated. -/
theorem getProcEnv_holds_trailing_entries (A E : List CString)
    (hE : ∀ s ∈ E, '=' ∈ s) (hA : ∀ a, A.getLast? = some a → '=' ∉ a) :
    (∀ s ∈ E, envName s ++ '=' :: envValue s = s ∧ '=' ∉ envName s) ∧
    (∀ k v, (k, v) ∈ getProcEnv.ofArgs (A ++ E) ↔
      ∃ s, E.find? (fun s => decide (envName s = k)) = some s ∧ envValue s = v) ∧
    (∀ k v, (k, v) ∈ getProcEnv.ofArgs (A ++ E) → k ++ '=' :: v ∈ E ∧ '=' ∉ k) ∧
    (∀ s ∈ E, ∃ v, (envName s, v) ∈ getProcEnv.ofArgs (A ++ E)) ∧
    ((E.map envName).Nodup → ∀ k v,
      ((k, v) ∈ getProcEnv.ofArgs (A ++ E) ↔ k ++ '=' :: v ∈ E ∧ '=' ∉ k)) ∧
    getProcEnv.ofArgs ["/usr/bin/foo".toList, "-a".toList, "-b".toList,
        "HOME=/root".toList, "PATH=/bin".toList] =
      [("HOME".toList, "/root".toList), ("PATH".toList, "/bin".toList)] ∧
    getProcEnv.ofArgs ["/bin/x".toList, "--flag=value".toList] =
      [("--flag".toList, "value".toList)] := by
  rw [getProcEnv_ofArgs_eq A E hE hA]
  have hsplit : ∀ s ∈ E, envName s ++ '=' :: envValue s = s ∧ '=' ∉ envName s :=
    fun s hs => split_first '=' s (hE s hs)
  have hsub : ∀ k v, (k, v) ∈ envOf E → k ++ '=' :: v ∈ E ∧ '=' ∉ k := by
    intro k v h
    obtain ⟨s, hs, hv⟩ := (mem_envOf_iff E k v).1 h
    have hmem : s ∈ E := List.mem_of_find?_eq_some hs
    have hk : envName s = k := by simpa using List.find?_some hs
    have := hsplit s hmem
    rw [hk, hv] at this
    exact ⟨by rw [this.1]; exact hmem, this.2⟩
  refine ⟨hsplit, mem_envOf_iff E, hsub, ?_, ?_, by decide, by decide⟩
  · intro s hs
    have hsome : (E.find? (fun t => decide (envName t = envName s))).isSome := by
      rw [List.find?_isSome]
      exact ⟨s, hs, by simp⟩
    obtain ⟨t, ht⟩ := Option.isSome_iff_exists.1 hsome
    exact ⟨envValue t, (mem_envOf_iff E _ _).2 ⟨t, ht, rfl⟩⟩
  · intro hnd k v
    refine ⟨hsub k v, ?_⟩
    rintro ⟨hmem, hk⟩
    obtain ⟨e1, e2⟩ := split_unique '=' k v hk
    have hsome : (E.find? (fun t => decide (envName t = k))).isSome := by
      rw [List.find?_isSome]
      exact ⟨_, hmem, by simpa [envName] using e1⟩
    obtain ⟨t, ht⟩ := Option.isSome_iff_exists.1 hsome
    have htk : envName t = k := by simpa using List.find?_some ht
    have hte : t = k ++ '=' :: v :=
      List.inj_on_of_nodup_map hnd (List.mem_of_find?_eq_some ht) hmem
        (by rw [htk]; exact e1.symm)
    refine (mem_envOf_iff E k v).2 ⟨t, ht, ?_⟩
    rw [hte]
    exact e2

/-- Witness of `getProcEnv_holds_trailing_entries` on the round-trip example. -/
theorem getProcEnv_holds_trailing_entries_witness :
    (∀ s ∈ ["HOME=/root".toList, "PATH=/bin".toList], '=' ∈ s) ∧
    (∀ a, ["/usr/bin/foo".toList, "-a".toList, "-b".toList].getLast? = some a → '=' ∉ a) ∧
    ("HOME".toList, "/root".toList) ∈
      getProcEnv.ofArgs (["/usr/bin/foo".toList, "-a".toList, "-b".toList] ++
        ["HOME=/root".toList, "PATH=/bin".toList]) :=
  ⟨by decide, by decide,
    ((getProcEnv_holds_trailing_entries
        ["/usr/bin/foo".toList, "-a".toList, "-b".toList]
        ["HOME=/root".toList, "PATH=/bin".toList] (by decide) (by decide)).2.1
      "HOME".toList "/root".toList).2 ⟨"HOME=/root".toList, by decide, by decide⟩⟩

/-- Claim C10: when the trailing run `E` of strings with `=` holds two or more strings
named `k`, the environment map of `getProcEnv` has exactly one entry under `k`, and
its value is that of the leftmost string of `E` named `k`: `E` splits as
`E1 ++ s :: E2` with `s` named `k`, no string of `E1` named `k`, and the entries
under `k` are the single pair `(k, value of s)`. The example
`/bin/x -a K=1 K=2` yields the one entry `K: 1`. -/
theorem getProcEnv_duplicate_leftmost (A E : List CString) (k : CString)
    (hE : ∀ s ∈ E, '=' ∈ s) (hA : ∀ a, A.getLast? = some a → '=' ∉ a)
    (hdup : 2 ≤ (E.filter (fun s => decide (envName s = k))).length) :
    (∃ E1 s E2, E = E1 ++ s :: E2 ∧ envName s = k ∧ (∀ t ∈ E1, envName t ≠ k) ∧
      (getProcEnv.ofArgs (A ++ E)).filter (fun p => decide (p.1 = k)) = [(k, envValue s)] ∧
      mapFind k (getProcEnv.ofArgs (A ++ E)) = some (envValue s)) ∧
    getProcEnv.ofArgs ["/bin/x".toList, "-a".toList, "K=1".toList, "K=2".toList] =
      [("K".toList, "1".toList)] := by
  refine ⟨?_, by decide⟩
  rw [getProcEnv_ofArgs_eq A E hE hA]
  have hne : (E.filter (fun s => decide (envName s = k))) ≠ [] := by
    intro h; rw [h] at hdup; simp at hdup
  obtain ⟨t, ht⟩ := List.exists_mem_of_ne_nil _ hne
  have hsome : (E.find? (fun s => decide (envName s = k))).isSome := by
    rw [List.find?_isSome]
    exact ⟨t, (List.mem_filter.1 ht).1, (List.mem_filter.1 ht).2⟩
  obtain ⟨s, hs⟩ := Option.isSome_iff_exists.1 hsome
  obtain ⟨hp, E1, E2, hsplit, hbefore⟩ := List.find?_eq_some.1 hs
  have hfind : mapFind k (envOf E) = some (envValue s) := by
    rw [mapFind_envOf, hs]; rfl
  refine ⟨E1, s, E2, hsplit, by simpa using hp, ?_, ?_, hfind⟩
  · intro t ht
    simpa using hbefore t ht
  · rw [filter_key_of_sorted strLt_strictTotal k _ (keysSorted_envOf E), hfind]
    rfl

/-- Witness of `getProcEnv_duplicate_leftmost` on `/bin/x -a K=1 K=2`. -/
theorem getProcEnv_duplicate_leftmost_witness :
    (∀ s ∈ ["K=1".toList, "K=2".toList], '=' ∈ s) ∧
    (∀ a, ["/bin/x".toList, "-a".toList].getLast? = some a → '=' ∉ a) ∧
    2 ≤ (["K=1".toList, "K=2".toList].filter
      (fun s => decide (envName s = "K".toList))).length ∧
    ∃ E1 s E2, ["K=1".toList, "K=2".toList] = E1 ++ s :: E2 ∧ envName s = "K".toList ∧
      (∀ t ∈ E1, envName t ≠ "K".toList) ∧
      (getProcEnv.ofArgs (["/bin/x".toList, "-a".toList] ++
        ["K=1".toList, "K=2".toList])).filter (fun p => decide (p.1 = "K".toList)) =
          [("K".toList, envValue s)] ∧
      mapFind "K".toList (getProcEnv.ofArgs (["/bin/x".toList, "-a".toList] ++
        ["K=1".toList, "K=2".toList])) = some (envValue s) :=
  ⟨by decide, by decide, by decide,
    (getProcEnv_duplicate_leftmost ["/bin/x".toList, "-a".toList]
      ["K=1".toList, "K=2".toList] "K".toList (by decide) (by decide) (by decide)).1⟩

theorem getProcArgs_scan_run (l1 l2 args : List CString) (h1 : ∀ s ∈ l1, '=' ∈ s) :
    getProcArgs.scan (l1 ++ l2) false args = getProcArgs.scan l2 false args := by
  induction l1 with
  | nil => rfl
  | cons s l1 ih =>
    have hs : '=' ∈ s := h1 s (List.mem_cons_self _ _)
    simp only [List.cons_append, getProcArgs.scan]
    cases hf : find_first_of '=' s with
    | none => exact absurd hs ((find_first_of_eq_none _ _).1 hf)
    | some idx => simpa using ih (fun t ht => h1 t (List.mem_cons_of_mem _ ht))

theorem getProcArgs_scan_collect (l args : List CString) :
    getProcArgs.scan l true args = args ++ l.map trim := by
  induction l generalizing args with
  | nil => simp [getProcArgs.scan]
  | cons s l ih => simp [getProcArgs.scan, ih]

/-- What `getProcArgs` computes: the strings before the trailing run of strings with
`=`, trimmed and in order, except the last of them, which is not collected. -/
theorem getProcArgs_ofRawArgs_eq (A E : List CString) (hE : ∀ s ∈ E, '=' ∈ s)
    (hA : ∀ a, A.getLast? = some a → '=' ∉ a) :
    getProcArgs.ofRawArgs (A ++ E) = A.dropLast.map trim := by
  unfold getProcArgs.ofRawArgs
  rw [List.reverse_append, getProcArgs_scan_run _ _ _ (by simpa using hE)]
  rcases List.eq_nil_or_concat A with rfl | ⟨A', a, rfl⟩
  · simp [getProcArgs.scan]
  · have ha : '=' ∉ a := hA a (by simp)
    have := (find_first_of_eq_none '=' a).2 ha
    simp [getProcArgs.scan, this, getProcArgs_scan_collect]

/-- Claim C1, evaluated on the code: on the round-trip example of the specification,
both as a decoded sequence and fetched from a buffer holding exactly these strings,
`getProcArgs` returns `/usr/bin/foo -a`: the argument `-b`, the last string before
the environment, is not collected, so the result is not the claimed
`/usr/bin/foo -a -b`. -/
theorem getProcArgs_drops_last_argument :
    getProcArgs.ofRawArgs ["/usr/bin/foo".toList, "-a".toList, "-b".toList,
        "HOME=/root".toList, "PATH=/bin".toList] =
      ["/usr/bin/foo".toList, "-a".toList] ∧
    getProcArgs.ofRawArgs ["/usr/bin/foo".toList, "-a".toList, "-b".toList,
        "HOME=/root".toList, "PATH=/bin".toList] ≠
      ["/usr/bin/foo".toList, "-a".toList, "-b".toList] ∧
    getProcRawArgs (fun _ => some ("/usr/bin/foo".toList ++ NUL :: "-a".toList ++
        NUL :: "-b".toList ++ NUL :: "HOME=/root".toList ++ NUL :: "PATH=/bin".toList ++
        [NUL], 40)) 40 =
      .ok ["/usr/bin/foo".toList, "-a".toList, "-b".toList,
        "HOME=/root".toList, "PATH=/bin".toList] ∧
    getProcArgs (fun _ => some ("/usr/bin/foo".toList ++ NUL :: "-a".toList ++
        NUL :: "-b".toList ++ NUL :: "HOME=/root".toList ++ NUL :: "PATH=/bin".toList ++
        [NUL], 40)) 40 =
      .ok ["/usr/bin/foo".toList, "-a".toList] := by
  refine ⟨by decide, by decide, by rfl, by rfl⟩

/-! ## Rows -/

theorem get_genProcRootAndCWD (pathinfo : Option proc_vnodepathinfo) (r : Row) (k : String)
    (h1 : k.toList ≠ "cwd".toList) (h2 : k.toList ≠ "root".toList) :
    (genProcRootAndCWD pathinfo r).get k = r.get k := by
  unfold genProcRootAndCWD
  cases pathinfo with
  | none => simp only [StrMap.get_set, h1, h2, if_false]
  | some p =>
    simp only
    split_ifs <;> simp only [StrMap.get_set, h1, h2, if_false]

theorem get_cred (bsdinfo : Option proc_bsdshortinfo) (r : Row) (k : String)
    (h1 : k.toList ≠ "uid".toList) (h2 : k.toList ≠ "gid".toList)
    (h3 : k.toList ≠ "euid".toList) (h4 : k.toList ≠ "egid".toList) :
    (genProcesses.cred bsdinfo r).get k = r.get k := by
  unfold genProcesses.cred
  cases getProcCred bsdinfo <;> simp only [StrMap.get_set, h1, h2, h3, h4, if_false]

theorem get_parent (parent_pid : List (Int × Int)) (pid : Int) (r : Row) (k : String)
    (h1 : k.toList ≠ "parent".toList) :
    (genProcesses.parent parent_pid pid r).get k = r.get k := by
  unfold genProcesses.parent
  cases mapFind pid parent_pid <;> simp only [StrMap.get_set, h1, if_false]

theorem get_rusage (d : Option rusage_info_v2) (r : Row) (k : String)
    (h1 : k.toList ≠ "wired_size".toList) (h2 : k.toList ≠ "resident_size".toList)
    (h3 : k.toList ≠ "phys_footprint".toList) (h4 : k.toList ≠ "user_time".toList)
    (h5 : k.toList ≠ "system_time".toList) (h6 : k.toList ≠ "start_time".toList) :
    (genProcesses.rusage d r).get k = r.get k := by
  unfold genProcesses.rusage
  cases d <;> simp only [StrMap.get_set, h1, h2, h3, h4, h5, h6, if_false]

/-- The columns `pid`, `uid`, `gid`, `euid`, `egid` and `parent` of the row that
`genProcesses` builds for one pid. -/
theorem row_columns (k : Kernel) (ext : Helpers) (parent_pid : List (Int × Int))
    (argmax : Nat) (pid : Int) (r : Row)
    (h : genProcesses.row k ext parent_pid argmax pid = .ok r) :
    r.get "pid" = some (lexical_cast pid) ∧
    r.get "parent" = some (match mapFind pid parent_pid with
      | some ppid => lexical_cast ppid
      | none => "-1".toList) ∧
    r.get "uid" = some (match k.shortbsdinfo pid with
      | some b => lexical_cast b.pbsi_ruid
      | none => "-1".toList) ∧
    r.get "gid" = some (match k.shortbsdinfo pid with
      | some b => lexical_cast b.pbsi_ruid
      | none => "-1".toList) ∧
    r.get "euid" = some (match k.shortbsdinfo pid with
      | some b => lexical_cast b.pbsi_uid
      | none => "-1".toList) ∧
    r.get "egid" = some (match k.shortbsdinfo pid with
      | some b => lexical_cast b.pbsi_gid
      | none => "-1".toList) := by
  unfold genProcesses.row at h
  cases hargs : getProcArgs (k.procargs2 pid) argmax with
  | error e => simp [hargs] at h
  | ok args =>
    simp only [hargs, Except.ok.injEq] at h
    subst h
    refine ⟨?_, ?_, ?_, ?_, ?_, ?_⟩
    · rw [get_rusage _ _ _ (by decide) (by decide) (by decide) (by decide) (by decide)
        (by decide), StrMap.get_set, if_neg (by decide),
        get_parent _ _ _ _ (by decide),
        get_cred _ _ _ (by decide) (by decide) (by decide) (by decide),
        get_genProcRootAndCWD _ _ _ (by decide) (by decide)]
      simp only [StrMap.get_set]
      rfl
    · rw [get_rusage _ _ _ (by decide) (by decide) (by decide) (by decide) (by decide)
        (by decide), StrMap.get_set, if_neg (by decide)]
      unfold genProcesses.parent
      cases mapFind pid parent_pid <;> simp only [StrMap.get_set, if_true]
    all_goals
      rw [get_rusage _ _ _ (by decide) (by decide) (by decide) (by decide) (by decide)
        (by decide), StrMap.get_set, if_neg (by decide),
        get_parent _ _ _ _ (by decide)]
      unfold genProcesses.cred getProcCred
      cases k.shortbsdinfo pid <;> simp only [StrMap.get_set] <;> rfl

theorem genProcesses_loop_rows (context : QueryContext) (k : Kernel) (ext : Helpers)
    (parent_pid : List (Int × Int)) (argmax : Nat) (pids : List Int) (results rows : QueryData)
    (h : genProcesses.loop context k ext parent_pid argmax pids results = .ok rows) :
    ∀ r ∈ rows, r ∈ results ∨ ∃ pid ∈ pids, context.pidMatches pid = true ∧
      genProcesses.row k ext parent_pid argmax pid = .ok r := by
  induction pids generalizing results with
  | nil =>
    simp only [genProcesses.loop, Except.ok.injEq] at h
    subst h
    exact fun r hr => Or.inl hr
  | cons pid pids ih =>
    simp only [genProcesses.loop] at h
    intro r hr
    by_cases hm : context.pidMatches pid = true
    · simp only [hm, Bool.not_true, Bool.false_eq_true, if_false] at h
      cases hrow : genProcesses.row k ext parent_pid argmax pid with
      | error e => simp [hrow] at h
      | ok r0 =>
        simp only [hrow] at h
        rcases ih _ h r hr with h1 | ⟨q, hq, hq1, hq2⟩
        · rcases List.mem_append.1 h1 with h1 | h1
          · exact Or.inl h1
          · simp only [List.mem_singleton] at h1
            subst h1
            exact Or.inr ⟨pid, List.mem_cons_self _ _, hm, hrow⟩
        · exact Or.inr ⟨q, List.mem_cons_of_mem _ hq, hq1, hq2⟩
    · simp only [Bool.not_eq_true] at hm
      simp only [hm, Bool.not_false, if_true] at h
      rcases ih _ h r hr with h1 | ⟨q, hq, hq1, hq2⟩
      · exact Or.inl h1
      · exact Or.inr ⟨q, List.mem_cons_of_mem _ hq, hq1, hq2⟩

/-- Claim C6 as amended: every element of the working set returned by `getProcList` is
strictly positive or is one of the equality-constrained pids, which are returned
verbatim; without an equality constraint every element is strictly positive; and
every row that `genProcesses` emits carries in its `pid` column such a pid. -/
theorem getProcList_positive_unless_constrained (context : QueryContext) (k : Kernel)
    (ext : Helpers) :
    (∀ p ∈ getProcList context k.listpids, 0 < p ∨ p ∈ context.equalityPids) ∧
    (context.equalityPids = [] → ∀ p ∈ getProcList context k.listpids, 0 < p) ∧
    (∀ rows, genProcesses context k ext = .ok rows → ∀ r ∈ rows,
      ∃ pid ∈ getProcList context k.listpids, (0 < pid ∨ pid ∈ context.equalityPids) ∧
        r.get "pid" = some (lexical_cast pid)) := by
  refine ⟨fun p hp => getProcList_pos_or_constraint context _ p hp, ?_, ?_⟩
  · intro hC p hp
    rcases getProcList_pos_or_constraint context _ p hp with h | h
    · exact h
    · rw [hC] at h; simp at h
  · intro rows hrows r hr
    unfold genProcesses at hrows
    rcases genProcesses_loop_rows _ _ _ _ _ _ _ _ hrows r hr with h | ⟨pid, hpid, -, hrow⟩
    · simp at h
    · exact ⟨pid, hpid, getProcList_pos_or_constraint context _ pid hpid,
        (row_columns _ _ _ _ _ _ hrow).1⟩

/-- Witness of `getProcList_positive_unless_constrained`: a context without constraint
and a kernel reporting the pids 0, 5, -3, 5. -/
theorem getProcList_positive_unless_constrained_witness :
    (5 : Int) ∈ getProcList ⟨false, [], fun _ => true⟩
      ⟨16, 16, fun i => [0, 5, -3, 5].getD i 0⟩ ∧
    (0 < (5 : Int) ∨ (5 : Int) ∈ QueryContext.equalityPids ⟨false, [], fun _ => true⟩) :=
  ⟨by decide,
    (getProcList_positive_unless_constrained ⟨false, [], fun _ => true⟩
      { failingKernel with listpids := ⟨16, 16, fun i => [0, 5, -3, 5].getD i 0⟩ }
      exampleHelpers).1 5 (by decide)⟩

/-- Claim C6 refuted as stated: with the equality constraint `pid = -1` the working set
is the constraint set, so it holds the non-positive -1, and `genProcesses` emits a
row whose `pid` column is `-1`. -/
theorem getProcList_constraint_not_positive :
    getProcList ⟨true, [-1], fun p => decide (p = -1)⟩ failingKernel.listpids = [-1] ∧
    ¬ (∀ p ∈ getProcList ⟨true, [-1], fun p => decide (p = -1)⟩ failingKernel.listpids,
      0 < p) ∧
    (genProcesses ⟨true, [-1], fun p => decide (p = -1)⟩ failingKernel exampleHelpers).map
        (fun rows => rows.map (fun r => r.get "pid")) = .ok [some "-1".toList] := by
  refine ⟨by decide, by decide, by rfl⟩

/-- Claim C4, evaluated on the code: for a process whose kernel record has real uid
501, real gid 20 and effective uid and gid 0, the emitted row has `uid` 501, `euid`
0, `egid` 0, and `gid` 501: `getProcCred` stores the real uid in `cred.real.gid`,
so the `gid` column is not the real gid 20. -/
theorem genProcesses_gid_is_real_uid :
    (genProcesses ⟨false, [], fun _ => true⟩ setuidKernel exampleHelpers).map
        (fun rows => rows.map
          (fun r => (r.get "pid", r.get "uid", r.get "gid", r.get "euid", r.get "egid"))) =
      .ok [(some "321".toList, some "501".toList, some "501".toList, some "0".toList,
        some "0".toList)] ∧
    (setuidKernel.shortbsdinfo 321).map (fun b => lexical_cast b.pbsi_rgid) =
      some "20".toList ∧
    getProcCred (some { pbsi_uid := 0, pbsi_gid := 0, pbsi_ruid := 501, pbsi_rgid := 20 }) =
      some { real_uid := 501, real_gid := 501, effective_uid := 0, effective_gid := 0 } := by
  refine ⟨by rfl, by rfl, by rfl⟩

/-! ## Lineage resolver -/

theorem mem_getParentMap_loop (sysctl : KernProc) (pids : List Int) (acc : List (Int × Int))
    (p v : Int) (h : (p, v) ∈ getParentMap.loop sysctl pids acc) :
    (p, v) ∈ acc ∨ ∃ l1 l2, pids = l1 ++ p :: l2 ∧ (∀ q ∈ l1, sysctl q ≠ none) ∧
      ∃ size, 0 < size ∧ sysctl p = some (size, v) := by
  induction pids generalizing acc with
  | nil => exact Or.inl (by simpa [getParentMap.loop] using h)
  | cons pid pids ih =>
    simp only [getParentMap.loop] at h
    cases hq : sysctl pid with
    | none =>
      simp only [hq] at h
      exact Or.inl h
    | some res =>
      obtain ⟨size, e_ppid⟩ := res
      simp only [hq] at h
      have hpid : ∀ q ∈ ([] : List Int) ++ [pid], sysctl q ≠ none := by
        intro q hq'
        simp only [List.nil_append, List.mem_singleton] at hq'
        subst hq'
        rw [hq]
        simp
      have lift : (∃ l1 l2, pids = l1 ++ p :: l2 ∧ (∀ q ∈ l1, sysctl q ≠ none) ∧
          ∃ size, 0 < size ∧ sysctl p = some (size, v)) →
          ∃ l1 l2, pid :: pids = l1 ++ p :: l2 ∧ (∀ q ∈ l1, sysctl q ≠ none) ∧
            ∃ size, 0 < size ∧ sysctl p = some (size, v) := by
        rintro ⟨l1, l2, e, hq1, hq2⟩
        refine ⟨pid :: l1, l2, by rw [e]; rfl, ?_, hq2⟩
        intro q hq'
        rcases List.mem_cons.1 hq' with rfl | hq'
        · rw [hq]; simp
        · exact hq1 q hq'
      split_ifs at h with hsize
      · rcases ih _ h with h1 | h1
        · rcases mem_mapSet _ _ _ _ _ h1 with h2 | h2
          · simp only [Prod.mk.injEq] at h2
            obtain ⟨rfl, rfl⟩ := h2
            exact Or.inr ⟨[], pids, rfl, by simp, size, hsize, hq⟩
          · exact Or.inl h2
        · exact Or.inr (lift h1)
      · rcases ih _ h with h1 | h1
        · exact Or.inl h1
        · exact Or.inr (lift h1)

/-- Claim C8: for a candidate set visited in ascending order and any outcomes of the
per-pid query, an entry `(p, v)` of the map of `getParentMap` has `p` in the
candidate set, the query for `p` succeeded and reported parent `v`, and the query
failed for no smaller candidate; so a candidate at or after a failing one is absent
from the map, `find` gives `end()` for it, and the row built for it has `-1` in its
`parent` column. -/
theorem getParentMap_stops_at_first_failure (sysctl : KernProc) (pidlist : List Int)
    (hsorted : pidlist.Pairwise (· < ·)) :
    (∀ p v, (p, v) ∈ getParentMap sysctl pidlist →
      p ∈ pidlist ∧ (∃ size, sysctl p = some (size, v)) ∧
        ∀ q ∈ pidlist, q < p → sysctl q ≠ none) ∧
    (∀ p v, mapFind p (getParentMap sysctl pidlist) = some v →
      p ∈ pidlist ∧ (∃ size, sysctl p = some (size, v)) ∧
        ∀ q ∈ pidlist, q < p → sysctl q ≠ none) ∧
    (∀ f ∈ pidlist, sysctl f = none → ∀ p ∈ pidlist, f ≤ p →
      (∀ v, (p, v) ∉ getParentMap sysctl pidlist) ∧
      mapFind p (getParentMap sysctl pidlist) = none ∧
      ∀ (k : Kernel) (ext : Helpers) (argmax : Nat) (r : Row),
        genProcesses.row k ext (getParentMap sysctl pidlist) argmax p = .ok r →
          r.get "parent" = some "-1".toList) := by
  have hmem : ∀ p v, (p, v) ∈ getParentMap sysctl pidlist →
      p ∈ pidlist ∧ (∃ size, sysctl p = some (size, v)) ∧
        ∀ q ∈ pidlist, q < p → sysctl q ≠ none := by
    intro p v h
    rcases mem_getParentMap_loop sysctl pidlist [] p v h with h1 | ⟨l1, l2, e, hq1, size, -, hq2⟩
    · simp at h1
    · refine ⟨by rw [e]; simp, ⟨size, hq2⟩, ?_⟩
      intro q hq hlt
      rw [e] at hq hsorted
      rcases List.mem_append.1 hq with h1 | h1
      · exact hq1 q h1
      · have hp := (List.pairwise_append.1 hsorted).2.1
        rcases List.mem_cons.1 h1 with rfl | h2
        · omega
        · have := (List.pairwise_cons.1 hp).1 q h2
          omega
  have habsent : ∀ f ∈ pidlist, sysctl f = none → ∀ p ∈ pidlist, f ≤ p →
      ∀ v, (p, v) ∉ getParentMap sysctl pidlist := by
    intro f hf hfail p _ hle v hin
    obtain ⟨-, ⟨size, hs⟩, hsmaller⟩ := hmem p v hin
    rcases eq_or_lt_of_le hle with rfl | hlt
    · rw [hfail] at hs; simp at hs
    · exact hsmaller f hf hlt hfail
  refine ⟨hmem, fun p v h => hmem p v (mem_of_mapFind p v _ h), ?_⟩
  intro f hf hfail p hp hle
  have hnone : mapFind p (getParentMap sysctl pidlist) = none := by
    cases hfind : mapFind p (getParentMap sysctl pidlist) with
    | none => rfl
    | some v => exact absurd (mem_of_mapFind p v _ hfind) (habsent f hf hfail p hp hle v)
  refine ⟨habsent f hf hfail p hp hle, hnone, ?_⟩
  intro k ext argmax r hrow
  have := (row_columns k ext _ argmax p r hrow).2.1
  rw [this, hnone]

/-- Witness of `getParentMap_stops_at_first_failure`: candidates 1, 3, 5, 7, the query
failing for 5 alone. -/
theorem getParentMap_stops_at_first_failure_witness :
    ([1, 3, 5, 7] : List Int).Pairwise (· < ·) ∧
    getParentMap (fun p => if p = 5 then none else some (648, p - 1)) [1, 3, 5, 7] =
      [(1, 0), (3, 2)] ∧
    mapFind 7 (getParentMap (fun p => if p = 5 then none else some (648, p - 1))
      [1, 3, 5, 7]) = none :=
  ⟨by decide, by decide,
    ((getParentMap_stops_at_first_failure
      (fun p => if p = 5 then none else some (648, p - 1)) [1, 3, 5, 7] (by decide)).2.2
        5 (by decide) (by decide) 7 (by decide) (by decide)).2.1⟩

end tables
end osquery
